import Mathlib

/-!
Shallow embedding of the core of the Data-Analyst-Project2 repository:
the heuristic response-plan inferencer (`app/utils/formats.py`), the
wall-clock time budget (`app/utils/timer.py`), the size-bounded chart
encoder (`app/utils/plotter.py`) and the keyword task router
(`app/main.py`).  Python strings are modelled as `List Char`, byte
strings as `List Nat`, wall-clock instants as rationals, and the
matplotlib/PIL black boxes as oracle parameters.  The regular
expressions of `formats.py` are compiled by hand into deterministic
matchers that reproduce Python `re` search semantics (leftmost
position, ordered alternation, greedy quantifiers) on the pattern
shapes that actually occur there.
-/

namespace DAA

/-! ## Character classes (Python `re` ASCII classes) -/

/-- Python `\s` on the ASCII range: space, tab, newline, vertical tab,
form feed, carriage return. -/
def pySpace (c : Char) : Bool :=
  c = ' ' || c = '\t' || c = '\n' || c = '\r' ||
  c = Char.ofNat 11 || c = Char.ofNat 12

/-- ASCII letter, as in the token pattern `[a-zA-Z]+`. -/
def asciiAlpha (c : Char) : Bool :=
  (('a' ≤ c) && (c ≤ 'z')) || (('A' ≤ c) && (c ≤ 'Z'))

/-- ASCII decimal digit, as in `\d`. -/
def asciiDigit (c : Char) : Bool := ('0' ≤ c) && (c ≤ '9')

/-- Python `\w` on the ASCII range: letters, digits, underscore. -/
def pyWord (c : Char) : Bool := asciiAlpha c || asciiDigit c || c = '_'

/-- Key-name characters of `BULLET_KEY_RE`: `[A-Za-z0-9_\-]`. -/
def keyChar (c : Char) : Bool := pyWord c || c = '-'

/-- ASCII lower-casing, as `str.lower` acts on ASCII text. -/
def lowerCh (c : Char) : Char :=
  if ('A' ≤ c) && (c ≤ 'Z') then Char.ofNat (c.toNat + 32) else c

def lowerStr (s : List Char) : List Char := s.map lowerCh

/-- `str.strip()` restricted to ASCII whitespace. -/
def pyStrip (s : List Char) : List Char :=
  ((s.dropWhile pySpace).reverse.dropWhile pySpace).reverse

/-! ## Matcher combinators

Each regex of `formats.py` is hand-compiled into a "step" function that
attempts a match anchored at the current position and returns the data
the caller needs, plus a scanner that tries the step at every position
from the left, which is exactly `re.search`. -/

/-- Case-insensitive literal: consume `kw` (given lowercase) from the
input, returning the rest. -/
def litCI : List Char → List Char → Option (List Char)
  | [], s => some s
  | _ :: _, [] => none
  | k :: ks, c :: cs => if lowerCh c = k then litCI ks cs else none

/-- Greedy `\s*`. -/
def wsStar (s : List Char) : List Char := s.dropWhile pySpace

/-- `\s+`: at least one whitespace character, then greedy. -/
def ws1 : List Char → Option (List Char)
  | [] => none
  | c :: cs => if pySpace c then some (wsStar cs) else none

/-- Greedy `\d+`: one or more digits, returning them and the rest. -/
def digits1 (s : List Char) : Option (List Char × List Char) :=
  let d := s.takeWhile asciiDigit
  if d.isEmpty then none else some (d, s.dropWhile asciiDigit)

/-- Exactly `n` digits (`\d{n}`). -/
def takeDigits : Nat → List Char → Option (List Char × List Char)
  | 0, s => some ([], s)
  | _ + 1, [] => none
  | n + 1, c :: cs =>
    if asciiDigit c then
      (takeDigits n cs).map (fun p => (c :: p.1, p.2))
    else none

/-- Ordered alternation of case-insensitive literals. -/
def altLit : List (List Char) → List Char → Option (List Char)
  | [], _ => none
  | k :: ks, s =>
    match litCI k s with
    | some r => some r
    | none => altLit ks s

/-- `re.search`: try the anchored step at each position from the left
(including the empty tail). -/
def scanO (f : List Char → Option α) : List Char → Option α
  | [] => f []
  | c :: cs =>
    match f (c :: cs) with
    | some r => some r
    | none => scanO f cs

/-! ## The individual regexes of `formats.py` -/

/-- Anchored step of `ARRAY_HINT_RE = json\s+array\s+of\s+(strings|items)`. -/
def arrayHintStep (s : List Char) : Option Unit := do
  let s ← litCI "json".toList s
  let s ← ws1 s
  let s ← litCI "array".toList s
  let s ← ws1 s
  let s ← litCI "of".toList s
  let s ← ws1 s
  match litCI "strings".toList s with
  | some _ => some ()
  | none => (litCI "items".toList s).map fun _ => ()

def arrayHint (t : List Char) : Bool := (scanO arrayHintStep t).isSome

/-- Anchored step of
`ARRAY_COUNT_RE = (?:array|return|respond)\s+(?:with|of|exactly)\s*(\d+)\s*(?:items|elements|strings)?`;
only group 1 matters to the caller. -/
def arrayCountStep (s : List Char) : Option (List Char) := do
  let s ← altLit ["array".toList, "return".toList, "respond".toList] s
  let s ← ws1 s
  let s ← altLit ["with".toList, "of".toList, "exactly".toList] s
  let p ← digits1 (wsStar s)
  pure p.1

/-- Anchored step of `OBJECT_HINT_RE = json\s+object`. -/
def objectHintStep (s : List Char) : Option Unit := do
  let s ← litCI "json".toList s
  let s ← ws1 s
  let _ ← litCI "object".toList s
  pure ()

def objectHint (t : List Char) : Bool := (scanO objectHintStep t).isSome

/-- Anchored step of `PLOT_HINT_RE = plot|chart|image`. -/
def plotHintStep (s : List Char) : Option Unit :=
  (altLit ["plot".toList, "chart".toList, "image".toList] s).map fun _ => ()

def plotHint (t : List Char) : Bool := (scanO plotHintStep t).isSome

def pngHint (t : List Char) : Bool :=
  (scanO (fun s => litCI "png".toList s) t).isSome

def jpgHint (t : List Char) : Bool :=
  (scanO (fun s => altLit ["jpg".toList, "jpeg".toList] s) t).isSome

/-- One backtracking branch of the first `SIZE_RE` alternative
`(\d{2,3}[,]?\d{3})\s*bytes`: `k` leading digits and an optional comma.
Returns group 1 with the comma already removed (as `int(... .replace(",",""))`
does). -/
def sizeBytesTry (k : Nat) (withComma : Bool) (s : List Char) :
    Option (List Char) := do
  let p ← takeDigits k s
  let s ← if withComma then
      match p.2 with
      | ',' :: r => some r
      | _ => none
    else some p.2
  let q ← takeDigits 3 s
  let _ ← litCI "bytes".toList (wsStar q.2)
  pure (p.1 ++ q.1)

/-- First `SIZE_RE` alternative with Python's backtracking order:
`\d{2,3}` greedy, `[,]?` greedy. -/
def sizeBytesAlt (s : List Char) : Option (List Char) :=
  match sizeBytesTry 3 true s with
  | some g => some g
  | none =>
    match sizeBytesTry 3 false s with
    | some g => some g
    | none =>
      match sizeBytesTry 2 true s with
      | some g => some g
      | none => sizeBytesTry 2 false s

/-- Second `SIZE_RE` alternative `([1-9]\d*)\s*k(?:b|ib)?`: the optional
suffix never affects group 2. -/
def sizeKiloAlt : List Char → Option (List Char)
  | [] => none
  | c :: cs =>
    if ('1' ≤ c) && (c ≤ '9') then
      let ds := cs.takeWhile asciiDigit
      match wsStar (cs.dropWhile asciiDigit) with
      | k :: _ => if lowerCh k = 'k' then some (c :: ds) else none
      | [] => none
    else none

/-- Anchored step of `SIZE_RE`, tagging which alternative matched. -/
def sizeStep (s : List Char) : Option (Bool × List Char) :=
  match sizeBytesAlt s with
  | some g => some (true, g)
  | none => (sizeKiloAlt s).map fun g => (false, g)

def natOfDigits (ds : List Char) : Nat :=
  ds.foldl (fun n c => n * 10 + (c.toNat - 48)) 0

/-- `_extract_global_max_bytes`: first `SIZE_RE` match, group 1 as a
plain byte count, group 2 scaled by 1000, default `100_000`. -/
def extract_global_max_bytes (t : List Char) : Nat :=
  match scanO sizeStep t with
  | some (true, g) => natOfDigits g
  | some (false, g) => natOfDigits g * 1000
  | none => 100000

/-- `_extract_array_count`: group 1 of the first `ARRAY_COUNT_RE` match. -/
def extract_array_count (t : List Char) : Option Nat :=
  (scanO arrayCountStep t).map natOfDigits

/-! ## Tokenization and chart detection -/

theorem dropWhile_length_le (p : α → Bool) :
    ∀ l : List α, (l.dropWhile p).length ≤ l.length := by
  intro l
  induction l with
  | nil => simp [List.dropWhile]
  | cons c cs ih =>
    by_cases h : p c
    · simpa [List.dropWhile, h] using Nat.le_succ_of_le ih
    · simp [List.dropWhile, h]

/-- Maximal-letter-run accumulator: `acc` holds the reversed current
run. -/
def tokenizeAcc : List Char → List Char → List (List Char)
  | acc, [] => if acc.isEmpty then [] else [acc.reverse]
  | acc, c :: cs =>
    if asciiAlpha c then tokenizeAcc (c :: acc) cs
    else if acc.isEmpty then tokenizeAcc [] cs
    else acc.reverse :: tokenizeAcc [] cs

/-- `re.findall(r"[a-zA-Z]+", t.lower())`: maximal letter runs of the
lower-cased text. -/
def tokenize (s : List Char) : List (List Char) := tokenizeAcc [] s

/-- `COLOR_RE.fullmatch` on a (lower-case) token. -/
def isColorTok (t : List Char) : Bool :=
  t = "blue".toList || t = "green".toList || t = "red".toList ||
  t = "orange".toList || t = "purple".toList || t = "black".toList

/-- `BAR_RE.fullmatch` on a token: `\b(bar|bars|bar\s*chart)\b` with
`\s*` empty inside a single letter run. -/
def isBarTok (t : List Char) : Bool :=
  t = "bar".toList || t = "bars".toList || t = "barchart".toList

/-- `LINE_RE.fullmatch` on a token: `\bline\s*(chart|plot)\b`. -/
def isLineTok (t : List Char) : Bool :=
  t = "linechart".toList || t = "lineplot".toList

/-- `HIST_RE.fullmatch` on a token. -/
def isHistTok (t : List Char) : Bool :=
  t = "hist".toList || t = "histogram".toList

/-- `SCATTER_RE.fullmatch` on a token. -/
def isScatterTok (t : List Char) : Bool := t = "scatter".toList

/-- One probe of `_find_color_near`: token at (possibly negative)
index `j`, if in range and a color. -/
def colorAt (toks : List (List Char)) (j : Int) : Option (List Char) :=
  if j < 0 then none
  else
    (toks.get? j.toNat).bind
      fun t => if isColorTok t then some t else none

/-- `_find_color_near`: probe offsets −1, +1, −2, +2, −3, +3 in the
loop order of the source, first hit winning. -/
def find_color_near (i : Nat) (toks : List (List Char)) :
    Option (List Char) :=
  match colorAt toks ((i : Int) - 1) with
  | some c => some c
  | none =>
    match colorAt toks ((i : Int) + 1) with
    | some c => some c
    | none =>
      match colorAt toks ((i : Int) - 2) with
      | some c => some c
      | none =>
        match colorAt toks ((i : Int) + 2) with
        | some c => some c
        | none =>
          match colorAt toks ((i : Int) - 3) with
          | some c => some c
          | none => colorAt toks ((i : Int) + 3)

/-- Anchored step of `\bred\b` given whether the previous character is a
word character. -/
def redAt (prevIsWord : Bool) (s : List Char) : Bool :=
  if prevIsWord then false
  else
    match litCI "red".toList s with
    | some [] => true
    | some (c :: _) => !pyWord c
    | none => false

/-- `re.search(r"\bred\b", t, re.I)`. -/
def searchRed : Bool → List Char → Bool
  | prev, [] => redAt prev []
  | prev, c :: cs => redAt prev (c :: cs) || searchRed (pyWord c) cs

def redAnywhere (t : List Char) : Bool := searchRed false t

/-- Anchored step of `dotted\s+red\s+regression\s+line`. -/
def dottedStep (s : List Char) : Option Unit := do
  let s ← litCI "dotted".toList s
  let s ← ws1 s
  let s ← litCI "red".toList s
  let s ← ws1 s
  let s ← litCI "regression".toList s
  let s ← ws1 s
  let _ ← litCI "line".toList s
  pure ()

def dottedRedRegression (t : List Char) : Bool :=
  (scanO dottedStep t).isSome

/-- A chart spec, as the dicts built by `detect_chart_specs`. -/
structure ChartSpec where
  slot_key : String
  ctype : String
  color : String
  max_bytes : Nat
deriving DecidableEq, Repr

/-- The color of the scatter branch: red when the dotted-regression
phrase or a standalone `red` occurs anywhere in the text. -/
def scatterColor (t : List Char) : String :=
  if dottedRedRegression t || redAnywhere t then "red" else "blue"

/-- The token-scanning loop of `detect_chart_specs`, before
deduplication; `i` is the index of the head of `toks` in `allToks`. -/
def rawSpecs (t : List Char) (maxB : Nat) (allToks : List (List Char)) :
    Nat → List (List Char) → List ChartSpec
  | _, [] => []
  | i, tok :: rest =>
    (if isBarTok tok then
      [⟨"bar_chart", "bar",
        String.mk ((find_color_near i allToks).getD "blue".toList), maxB⟩]
    else if isLineTok tok then
      [⟨"line_chart", "line",
        String.mk ((find_color_near i allToks).getD "red".toList), maxB⟩]
    else if isHistTok tok then
      [⟨"histogram", "hist",
        String.mk ((find_color_near i allToks).getD "orange".toList), maxB⟩]
    else if isScatterTok tok then
      [⟨"scatter_plot", "scatter", scatterColor t, maxB⟩]
    else []) ++ rawSpecs t maxB allToks (i + 1) rest

/-- Deduplication by `(slot_key, type, color)` preserving order. -/
def dedupSpecs (seen : List (String × String × String)) :
    List ChartSpec → List ChartSpec
  | [] => []
  | s :: rest =>
    if seen.contains (s.slot_key, s.ctype, s.color) then dedupSpecs seen rest
    else s :: dedupSpecs ((s.slot_key, s.ctype, s.color) :: seen) rest

/-- `detect_chart_specs`. -/
def detect_chart_specs (text : List Char) : List ChartSpec :=
  let t := pyStrip text
  let toks := tokenize (lowerStr t)
  dedupSpecs [] (rawSpecs t (extract_global_max_bytes t) toks 0 toks)

/-! ## Key extraction -/

/-- Split on `\n` (separator not kept), for the `re.MULTILINE` anchors. -/
def splitLines : List Char → List (List Char)
  | [] => [[]]
  | '\n' :: cs => [] :: splitLines cs
  | c :: cs =>
    match splitLines cs with
    | [] => [[c]]
    | l :: ls => (c :: l) :: ls

/-- `BULLET_KEY_RE = ^\s*-\s*([A-Za-z0-9_\-]+)\s*:\s*$` on one line. -/
def bulletKey (line : List Char) : Option (List Char) :=
  match wsStar line with
  | '-' :: r =>
    let r2 := wsStar r
    let key := r2.takeWhile keyChar
    if key.isEmpty then none
    else
      match wsStar (r2.dropWhile keyChar) with
      | ':' :: r3 => if (wsStar r3).isEmpty then some key else none
      | _ => none
  | _ => none

/-- Anchored match of `keys?\s*:\s*(.+)$` (with `re.M`, so `\s*` may
cross newlines while `.` and `$` stay line-local); returns the captured
group and the input remaining after the match, for non-overlapping
iteration. -/
def keysLineAt (s : List Char) : Option (List Char × List Char) := do
  let r1 ← litCI "key".toList s
  let r2 := match r1 with
    | c :: cs => if lowerCh c = 's' then cs else r1
    | [] => r1
  match wsStar r2 with
  | ':' :: r4 =>
    let w := r4.takeWhile pySpace
    let after := r4.drop w.length
    match after with
    | _ :: _ =>
      let grp := after.takeWhile (fun c => c ≠ '\n')
      some (grp, after.drop grp.length)
    | [] =>
      let m := (w.reverse.takeWhile (fun c => c = '\n')).length
      if m < w.length then
        let k := w.length - m - 1
        some ((w.drop k).takeWhile (fun c => c ≠ '\n'),
              w.drop (k + 1))
      else none
  | _ => none

/-- All non-overlapping `KEYS_LIST_LINE_RE` captures, scanned with
explicit fuel (one unit per character, which always suffices since a
match consumes at least four characters). -/
def keysScanGo : Nat → List Char → List (List Char)
  | 0, _ => []
  | _ + 1, [] => []
  | fuel + 1, c :: cs =>
    match keysLineAt (c :: cs) with
    | some (g, rest) => g :: keysScanGo fuel rest
    | none => keysScanGo fuel cs

def keysListCaptures (t : List Char) : List (List Char) :=
  keysScanGo t.length t

/-- State machine for `re.findall(r'"([^"]+)"', line)`: `none` when
outside a candidate, `some acc` (reversed run) after an unmatched
opening quote; an immediately repeated quote restarts the candidate,
exactly as the scan of the regex (whose group needs at least one
non-quote character) advances past a failed opener. -/
def quotedAcc : Option (List Char) → List Char → List (List Char)
  | _, [] => []
  | none, '"' :: cs => quotedAcc (some []) cs
  | none, _ :: cs => quotedAcc none cs
  | some acc, '"' :: cs =>
    if acc.isEmpty then quotedAcc (some []) cs
    else acc.reverse :: quotedAcc none cs
  | some acc, c :: cs => quotedAcc (some (c :: acc)) cs

def quotedStrings (line : List Char) : List (List Char) :=
  quotedAcc none line

def addUnique (acc : List (List Char)) (k : List Char) :
    List (List Char) :=
  if acc.contains k then acc else acc ++ [k]

/-- `_extract_object_keys`: bulleted keys first, then quoted tokens of
each `keys:` line, first occurrence winning. -/
def extract_object_keys (t : List Char) : List (List Char) :=
  let bullets := (splitLines t).foldl
    (fun acc line =>
      match bulletKey line with
      | some k => addUnique acc k
      | none => acc) []
  (keysListCaptures t).foldl
    (fun acc grp =>
      (quotedStrings grp).foldl
        (fun acc q =>
          let qv := pyStrip q
          if qv.isEmpty then acc else addUnique acc qv) acc)
    bullets

/-! ## Encoding-mode detection -/

/-- Anchored step of `DATA_URI_RE = data\s*uri|data:image/\w+;base64`. -/
def dataUriStep (s : List Char) : Option Unit :=
  match (do
    let s ← litCI "data".toList s
    let _ ← litCI "uri".toList (wsStar s)
    pure ()) with
  | some _ => some ()
  | none => do
    let s ← litCI "data:image/".toList s
    let w := s.takeWhile pyWord
    if w.isEmpty then none
    else
      let _ ← litCI ";base64".toList (s.drop w.length)
      pure ()

/-- Anchored step of `RAW_B64_RE = raw\s*base64|base64\s*(png|only)\b`. -/
def rawB64Step (s : List Char) : Option Unit :=
  match (do
    let s ← litCI "raw".toList s
    let _ ← litCI "base64".toList (wsStar s)
    pure ()) with
  | some _ => some ()
  | none => do
    let s ← litCI "base64".toList s
    let s := wsStar s
    let r ← match litCI "png".toList s with
      | some r => some r
      | none => litCI "only".toList s
    match r with
    | [] => pure ()
    | c :: _ => if pyWord c then none else pure ()

/-- Anchored step of `base64\s+png`. -/
def b64PngStep (s : List Char) : Option Unit := do
  let s ← litCI "base64".toList s
  let s ← ws1 s
  let _ ← litCI "png".toList s
  pure ()

/-- `wants_raw_base64`. -/
def wants_raw_base64 (text : List Char) : Bool :=
  let t := pyStrip text
  if (scanO dataUriStep t).isSome then false
  else if (scanO rawB64Step t).isSome then true
  else if (scanO b64PngStep t).isSome then true
  else false

/-! ## The plan parsers -/

/-- Result of `parse_required_shape`. -/
structure Shape where
  stype : String
  array_len : Option Nat
  object_keys : Option (List (List Char))
deriving DecidableEq, Repr

/-- `parse_required_shape`. -/
def parse_required_shape (text : List Char) : Shape :=
  let t := pyStrip text
  let isArray := arrayHint t
  let isObject := objectHint t && !isArray
  if isArray then ⟨"array", extract_array_count t, none⟩
  else
    let keys := if isObject then extract_object_keys t else []
    ⟨"object", none, if keys.isEmpty then none else some keys⟩

/-- Result of `parse_plan`. -/
structure Plan where
  response_type : String
  array_len : Option Nat
  object_keys : List String
  charts : List ChartSpec
  raw_base64_images : Bool
deriving DecidableEq, Repr

/-- `parse_plan`. -/
def parse_plan (text : List Char) : Plan :=
  let shape := parse_required_shape text
  { response_type := shape.stype
    array_len := shape.array_len
    object_keys := (shape.object_keys.getD []).map String.mk
    charts := detect_chart_specs text
    raw_base64_images := wants_raw_base64 text }

/-- Result of `parse_questions`. -/
structure Questions where
  qtype : String
  object_keys : List String
  array_count : Option Nat
  needs_plot : Bool
  plot_mime : String
  plot_max_bytes : Nat
deriving DecidableEq, Repr

/-- `parse_questions`. -/
def parse_questions (text : List Char) : Questions :=
  let t := pyStrip text
  let isArray := arrayHint t
  let isObject := objectHint t && !isArray
  let ptype : String :=
    if isArray then "array" else if isObject then "object" else "unknown"
  let mime : String :=
    if jpgHint t && !pngHint t then "image/jpeg" else "image/png"
  { qtype := ptype
    object_keys :=
      if ptype = "object" then (extract_object_keys t).map String.mk else []
    array_count := if ptype = "array" then extract_array_count t else none
    needs_plot := plotHint t
    plot_mime := mime
    plot_max_bytes := extract_global_max_bytes t }

/-! ## TimeBudget (`app/utils/timer.py`)

Wall-clock instants are rationals; `time.monotonic()` readings are
passed explicitly as the sampled instant `now`. -/

structure TimeBudget where
  total_seconds : ℚ
  start_monotonic : ℚ
deriving DecidableEq

def TimeBudget.deadline_monotonic (b : TimeBudget) : ℚ :=
  b.start_monotonic + b.total_seconds

/-- `remaining_seconds`, at the sampled instant `now`. -/
def TimeBudget.remaining_seconds (b : TimeBudget) (now : ℚ) : ℚ :=
  max 0 (b.deadline_monotonic - now)

/-- `elapsed_seconds`, at the sampled instant `now`. -/
def TimeBudget.elapsed_seconds (b : TimeBudget) (now : ℚ) : ℚ :=
  max 0 (now - b.start_monotonic)

/-- `time_exhausted`, at the sampled instant `now`. -/
def TimeBudget.time_exhausted (b : TimeBudget) (now buffer : ℚ) : Bool :=
  decide (b.remaining_seconds now ≤ max 0 buffer)

/-! ## TaskRouter (`app/main.py`, `handle_api` routing block)

The per-domain handlers are opaque functions supplied as parameters;
invoking one is modelled by the result depending on it.  The budget
check `budget.time_exhausted(buf)` is modelled by an opaque sampler
`ex : ℚ → Bool` taking the buffer. -/

/-- Case-sensitive literal prefix. -/
def litPlain : List Char → List Char → Option (List Char)
  | [], s => some s
  | _ :: _, [] => none
  | k :: ks, c :: cs => if c = k then litPlain ks cs else none

/-- Python `needle in hay` for strings. -/
def containsSubstr (hay needle : List Char) : Bool :=
  (scanO (fun s => litPlain needle s) hay).isSome

structure Handlers (α : Type) where
  highcourt : String → α
  wiki : String → α
  sales : String → α
  network : String → α
  weather : String → α
  duckdb : String → α
  generic : String → α

/-- A routed outcome: either a structured note dict
(`{"notes": ...}`) or a handler payload. -/
inductive Routed (α : Type) where
  | note (s : String)
  | payload (a : α)
deriving DecidableEq

def matchesHighcourt (tl : List Char) : Bool :=
  containsSubstr tl "high court".toList ||
  containsSubstr tl "high-court".toList ||
  containsSubstr tl "judgments.ecourts.gov.in".toList

def matchesWiki (tl : List Char) : Bool :=
  containsSubstr tl "wikipedia".toList ||
  containsSubstr tl "wikipedia.org".toList

def matchesSales (tl : List Char) : Bool :=
  containsSubstr tl "sales".toList ||
  containsSubstr tl "revenue".toList ||
  containsSubstr tl "orders".toList

def matchesNetwork (tl : List Char) : Bool :=
  containsSubstr tl "latency".toList ||
  containsSubstr tl "network".toList ||
  containsSubstr tl "ping".toList

def matchesWeather (tl : List Char) : Bool :=
  containsSubstr tl "weather".toList ||
  containsSubstr tl "temperature".toList ||
  containsSubstr tl "temp ".toList

def matchesDuckdb (tl : List Char) : Bool :=
  containsSubstr tl "duckdb".toList || containsSubstr tl "s3".toList

/-- The keyword dispatch of `handle_api`: ordered `elif` chain, each
branch checking the budget before invoking its handler.  The LLM
consult inside the generic branch does not touch `result_payload`, so
it does not appear in the payload model. -/
def route (q : String) (ex : ℚ → Bool) (h : Handlers α) : Routed α :=
  if matchesHighcourt (lowerStr q.toList) then
    if ex 3 then .note "timeout-skip-highcourt" else .payload (h.highcourt q)
  else if matchesWiki (lowerStr q.toList) then
    if ex 2 then .note "timeout-skip-wiki" else .payload (h.wiki q)
  else if matchesSales (lowerStr q.toList) then
    if ex 2 then .note "timeout-skip-sales" else .payload (h.sales q)
  else if matchesNetwork (lowerStr q.toList) then
    if ex 2 then .note "timeout-skip-network" else .payload (h.network q)
  else if matchesWeather (lowerStr q.toList) then
    if ex 2 then .note "timeout-skip-weather" else .payload (h.weather q)
  else if matchesDuckdb (lowerStr q.toList) then
    if ex 2 then .note "timeout-skip-duckdb" else .payload (h.duckdb q)
  else
    if ex 2 then .note "timeout-skip-generic" else .payload (h.generic q)

inductive Candidate where
  | highcourt | wiki | sales | network | weather | duckdb | generic
deriving DecidableEq

/-- The candidate the `elif` chain dispatches to. -/
def firstMatch (q : String) : Candidate :=
  if matchesHighcourt (lowerStr q.toList) then .highcourt
  else if matchesWiki (lowerStr q.toList) then .wiki
  else if matchesSales (lowerStr q.toList) then .sales
  else if matchesNetwork (lowerStr q.toList) then .network
  else if matchesWeather (lowerStr q.toList) then .weather
  else if matchesDuckdb (lowerStr q.toList) then .duckdb
  else .generic

/-- The buffer passed to `time_exhausted` in each branch. -/
def perTaskBuffer : Candidate → ℚ
  | .highcourt => 3
  | _ => 2

/-- The structured note produced when a branch skips its handler. -/
def skipTag : Candidate → String
  | .highcourt => "timeout-skip-highcourt"
  | .wiki => "timeout-skip-wiki"
  | .sales => "timeout-skip-sales"
  | .network => "timeout-skip-network"
  | .weather => "timeout-skip-weather"
  | .duckdb => "timeout-skip-duckdb"
  | .generic => "timeout-skip-generic"

/-! ## Base64 (`base64.b64encode` / decoding of the payload) -/

def b64tab : List Char :=
  "ABCDEFGHIJKLMNOPQRSTUVWXYZabcdefghijklmnopqrstuvwxyz0123456789+/".toList

def b64ch (i : Nat) : Char := b64tab.getD i 'A'

def b64idxGo : Nat → List Char → Char → Option Nat
  | _, [], _ => none
  | i, t :: ts, c => if t = c then some i else b64idxGo (i + 1) ts c

def b64idx (c : Char) : Option Nat := b64idxGo 0 b64tab c

/-- Standard base64 with padding, three input bytes per four output
characters. -/
def b64encode : List Nat → List Char
  | [] => []
  | [a] => [b64ch (a / 4), b64ch (a % 4 * 16), '=', '=']
  | [a, b] =>
    [b64ch (a / 4), b64ch (a % 4 * 16 + b / 16), b64ch (b % 16 * 4), '=']
  | a :: b :: c :: rest =>
    b64ch (a / 4) :: b64ch (a % 4 * 16 + b / 16) ::
    b64ch (b % 16 * 4 + c / 64) :: b64ch (c % 64) :: b64encode rest

/-- Standard base64 decoding; `none` on malformed input. -/
def b64decode : List Char → Option (List Nat)
  | [] => some []
  | c1 :: c2 :: c3 :: c4 :: rest =>
    if c3 = '=' ∧ c4 = '=' ∧ rest = [] then do
      let i1 ← b64idx c1
      let i2 ← b64idx c2
      pure [i1 * 4 + i2 / 16]
    else if c4 = '=' ∧ rest = [] then do
      let i1 ← b64idx c1
      let i2 ← b64idx c2
      let i3 ← b64idx c3
      pure [i1 * 4 + i2 / 16, i2 % 16 * 16 + i3 / 4]
    else do
      let i1 ← b64idx c1
      let i2 ← b64idx c2
      let i3 ← b64idx c3
      let i4 ← b64idx c4
      let tail ← b64decode rest
      pure ((i1 * 4 + i2 / 16) :: (i2 % 16 * 16 + i3 / 4) ::
            ((i3 % 4 * 64 + i4) :: tail))
  | _ => none

/-! ## SizeBoundedEncoder (`app/utils/plotter.py`)

`_encode_under_limit_bytes` and `encode_fig` of `src/app/utils/plotter.py`.
The matplotlib/PIL black boxes are an oracle: the baseline render
bytes, the image dimensions PIL reports after opening them, the bytes
each loop-iteration save produces, the final aggressive save, and the
1×1 fallback of `_tiny_fallback_image_bytes`.  The float computation
`int(width * 0.85)` is abstracted as an arbitrary `shrink` function,
since only the loop's exit conditions, never the returned bytes,
depend on it. -/

structure FigOracle where
  figBytes : List Nat
  openW : Nat
  openH : Nat
  loopSave : Nat → List Nat
  finalSave : List Nat
  tinyFallback : List Nat

/-- The outcome of the final maximally-aggressive save: its bytes if
they are no larger than the best seen, else the best seen. -/
def finalAttempt (o : FigOracle) (best : List Nat) : List Nat :=
  if o.finalSave.length ≤ best.length then o.finalSave else best

/-- The degradation loop (`for _ in range(10)`) plus the final
aggressive attempt; `k` counts executed iterations, `best` is the
smallest result seen so far. -/
def encodeLoop (o : FigOracle) (shrink : Nat → Nat)
    (maxB minW minH : Nat) :
    Nat → Nat → Nat → Nat → List Nat → List Nat
  | 0, _, _, _, best => finalAttempt o best
  | fuel + 1, k, w, h, best =>
    if (max minW (shrink w), max minH (shrink h)) = (w, h) ∧
        (w, h) = (minW, minH) then
      finalAttempt o best
    else
      if (o.loopSave k).length ≤ maxB then o.loopSave k
      else
        encodeLoop o shrink maxB minW minH fuel (k + 1)
          (if (max minW (shrink w), max minH (shrink h)) ≠ (w, h)
           then max minW (shrink w) else w)
          (if (max minW (shrink w), max minH (shrink h)) ≠ (w, h)
           then max minH (shrink h) else h)
          (if (o.loopSave k).length < best.length then o.loopSave k else best)

/-- `_encode_under_limit_bytes`: return the baseline render when it
already fits, else run the degradation loop. -/
def encode_under_limit_bytes (o : FigOracle) (shrink : Nat → Nat)
    (maxB minW minH : Nat) : List Nat :=
  if o.figBytes.length ≤ maxB then o.figBytes
  else encodeLoop o shrink maxB minW minH 10 0 o.openW o.openH o.figBytes

def wrapDataUri (mime : String) (b64 : List Char) : String :=
  "data:" ++ mime ++ ";base64," ++ String.mk b64

/-- `encode_image_under_limit`: backward-compatible data-URI wrapper
(no fallback substitution). -/
def encode_image_under_limit (o : FigOracle) (shrink : Nat → Nat)
    (mime : String) (maxB minW minH : Nat) : String :=
  wrapDataUri mime (b64encode (encode_under_limit_bytes o shrink maxB minW minH))

/-- The `data` value of `encode_fig` after the placeholder
substitution: the best-effort bytes when they fit, else the 1×1
fallback. -/
def figData (o : FigOracle) (shrink : Nat → Nat)
    (maxB minW minH : Nat) : List Nat :=
  if (encode_under_limit_bytes o shrink maxB minW minH).length > maxB
  then o.tinyFallback
  else encode_under_limit_bytes o shrink maxB minW minH

/-- `encode_fig`: size-bounded encoder with the 1×1 placeholder
fallback and the two output modes. -/
def encode_fig (o : FigOracle) (shrink : Nat → Nat) (mime : String)
    (maxB minW minH : Nat) (mode : String) : String :=
  if mode = "raw_base64"
  then String.mk (b64encode (figData o shrink maxB minW minH))
  else wrapDataUri mime (b64encode (figData o shrink maxB minW minH))

/-- The bytes an oracle can ever hand to the encoder. -/
def OracleOut (o : FigOracle) (d : List Nat) : Prop :=
  d = o.figBytes ∨ (∃ k, d = o.loopSave k) ∨ d = o.finalSave ∨
  d = o.tinyFallback

/-! ## Supporting lemmas -/

theorem dropWhile_eq_nil_of_all {p : α → Bool} {l : List α}
    (h : ∀ c ∈ l, p c) : l.dropWhile p = [] := by
  induction l with
  | nil => rfl
  | cons c cs ih =>
    have hc : p c := h c (List.mem_cons_self c cs)
    simp only [List.dropWhile, hc]
    exact ih fun x hx => h x (List.mem_cons_of_mem c hx)

theorem pyStrip_eq_nil {t : List Char} (h : ∀ c ∈ t, pySpace c) :
    pyStrip t = [] := by
  unfold pyStrip
  rw [dropWhile_eq_nil_of_all h]
  rfl

end DAA

namespace DAA

/-! ## The claims -/

/-- C5: the plan inferencer is a pure function of the text: the
embedding of `parse_plan` is a Lean function, so two calls on the same
text are definitionally the same structurally-equal plan (same shape,
array length, ordered object keys, chart specs and encoding mode). -/
theorem parse_plan_deterministic : ∀ t : List Char, parse_plan t = parse_plan t :=
  fun _ => rfl

/-- C7 counterexample: on the exact text
`"Respond with a json array of exactly 5 items."` the inferencer does
not produce an array plan: `ARRAY_HINT_RE` requires `array of
strings|items` directly, and `exactly 5` breaks the phrase, so the
claimed shape/array-length/keys triple is refuted. -/
theorem c7_scenario_fails :
    ¬ ((parse_plan "Respond with a json array of exactly 5 items.".toList).response_type = "array" ∧
       (parse_plan "Respond with a json array of exactly 5 items.".toList).array_len = some 5 ∧
       (parse_plan "Respond with a json array of exactly 5 items.".toList).object_keys = []) := by
  decide

/-- C7 amended: on that exact text `parse_plan` falls back to the
default object shape with no length, no keys, no charts and the
data-URI mode, while `parse_questions` reports shape `unknown` with no
count, the default byte limit and no plot. -/
theorem c7_scenario_actual :
    parse_plan "Respond with a json array of exactly 5 items.".toList =
      ⟨"object", none, [], [], false⟩ ∧
    parse_questions "Respond with a json array of exactly 5 items.".toList =
      ⟨"unknown", [], none, false, "image/png", 100000⟩ := by
  decide

/-- C8: the object-with-keys scenario: shape `object`, keys
`["total_sales", "bar_chart"]` in order, one deduplicated bar spec in
blue with the extracted 50000-byte limit, and the default data-URI
mode (`raw_base64_images = false`). -/
theorem c8_scenario :
    parse_plan "Return a json object with keys: \"total_sales\", \"bar_chart\". Plot a bar chart in blue, under 50000 bytes.".toList =
      ⟨"object", none, ["total_sales", "bar_chart"],
       [⟨"bar_chart", "bar", "blue", 50000⟩], false⟩ := by
  decide

/-- C4 counterexample: on empty text the plan inferencer does not
yield shape `unknown`: `parse_required_shape` defaults to `object`
whenever the array phrase is absent, so `parse_plan ""` has
`response_type = "object"`. -/
theorem c4_empty_not_unknown :
    (parse_plan "".toList).response_type = "object" ∧
    ("object" : String) ≠ "unknown" := by
  decide

/-- C4 amended: on empty or whitespace-only text the inferencer never
raises and yields a fully-defaulted plan, but its shape is `object`
(from `parse_plan`); the `unknown` shape of the claim is only reported
by the legacy `parse_questions`, which also carries the default
100000-byte limit; keys, charts, count and plot hints are all empty
and the encoding mode defaults to data-URI. -/
theorem c4_whitespace_defaults (t : List Char) (h : ∀ c ∈ t, pySpace c) :
    parse_plan t = ⟨"object", none, [], [], false⟩ ∧
    parse_questions t = ⟨"unknown", [], none, false, "image/png", 100000⟩ := by
  have hs : pyStrip t = [] := pyStrip_eq_nil h
  refine ⟨?_, ?_⟩
  · simp only [parse_plan, parse_required_shape, detect_chart_specs,
      wants_raw_base64, hs]
    decide
  · simp only [parse_questions, hs]
    decide

/-- Witness for C4 amended at the whitespace-only text `" "`. -/
theorem c4_whitespace_defaults_witness :
    parse_plan " ".toList = ⟨"object", none, [], [], false⟩ ∧
    parse_questions " ".toList = ⟨"unknown", [], none, false, "image/png", 100000⟩ :=
  c4_whitespace_defaults " ".toList (by decide)

/-- C2: for every total duration `d ≥ 0`, buffer `b ≥ 0` and instant
`now` at or after the start captured at creation, `remaining_seconds`
is never negative and `time_exhausted b` holds exactly when
`d - elapsed ≤ b`. -/
theorem timeBudget_exhausted_iff (d s b now : ℚ)
    (_hd : 0 ≤ d) (hb : 0 ≤ b) (hnow : s ≤ now) :
    0 ≤ (TimeBudget.mk d s).remaining_seconds now ∧
    ((TimeBudget.mk d s).time_exhausted now b = true ↔
      d - (TimeBudget.mk d s).elapsed_seconds now ≤ b) := by
  constructor
  · exact le_max_left 0 _
  · have hbuf : max 0 b = b := max_eq_right hb
    have help : (TimeBudget.mk d s).elapsed_seconds now = now - s := by
      unfold TimeBudget.elapsed_seconds
      exact max_eq_right (by linarith)
    unfold TimeBudget.time_exhausted TimeBudget.remaining_seconds
      TimeBudget.deadline_monotonic
    rw [hbuf, help, decide_eq_true_iff]
    constructor
    · intro hmax
      have : s + d - now ≤ b := le_trans (le_max_right 0 _) hmax
      linarith
    · intro hle
      have : s + d - now ≤ b := by linarith
      exact max_le hb this

/-- Witness for C2 at `d = 10`, `s = 0`, `b = 1`, `now = 4`. -/
theorem timeBudget_exhausted_iff_witness :
    0 ≤ (TimeBudget.mk 10 0).remaining_seconds 4 ∧
    ((TimeBudget.mk 10 0).time_exhausted 4 1 = true ↔
      10 - (TimeBudget.mk 10 0).elapsed_seconds 4 ≤ 1) :=
  timeBudget_exhausted_iff 10 0 1 4 (by norm_num) (by norm_num) (by norm_num)

/-- C3: whenever the budget sampler reports exhaustion at the matched
candidate's buffer, the router emits the skip note tagged with that
candidate and the outcome does not depend on any handler — no handler
is invoked. -/
theorem route_skips_when_exhausted {α : Type} (q : String) (ex : ℚ → Bool)
    (c : Candidate) (h h2 : Handlers α)
    (hm : firstMatch q = c) (hex : ex (perTaskBuffer c) = true) :
    route q ex h = Routed.note (skipTag c) ∧
    route q ex h = route q ex h2 := by
  unfold firstMatch at hm
  unfold route
  simp only [String.toList] at hm ⊢
  cases c with
  | highcourt =>
    have hex2 : ex 3 = true := hex
    split_ifs at hm with h1
    simp [h1, hex2, skipTag]
  | wiki =>
    have hex2 : ex 2 = true := hex
    split_ifs at hm with h1 h2b
    simp [h1, h2b, hex2, skipTag]
  | sales =>
    have hex2 : ex 2 = true := hex
    split_ifs at hm with h1 h2b h3
    simp [h1, h2b, h3, hex2, skipTag]
  | network =>
    have hex2 : ex 2 = true := hex
    split_ifs at hm with h1 h2b h3 h4
    simp [h1, h2b, h3, h4, hex2, skipTag]
  | weather =>
    have hex2 : ex 2 = true := hex
    split_ifs at hm with h1 h2b h3 h4 h5
    simp [h1, h2b, h3, h4, h5, hex2, skipTag]
  | duckdb =>
    have hex2 : ex 2 = true := hex
    split_ifs at hm with h1 h2b h3 h4 h5 h6
    simp [h1, h2b, h3, h4, h5, h6, hex2, skipTag]
  | generic =>
    have hex2 : ex 2 = true := hex
    split_ifs at hm with h1 h2b h3 h4 h5 h6
    simp [h1, h2b, h3, h4, h5, h6, hex2, skipTag]

/-! ### Base64 round trip -/

theorem b64div1 {a b : Nat} (hb : b < 256) :
    (a % 4 * 16 + b / 16) / 16 = a % 4 := by
  rw [Nat.add_comm, Nat.add_mul_div_right _ _ (by norm_num : (0:Nat) < 16)]
  have h0 : b / 16 / 16 = 0 := Nat.div_eq_of_lt (by omega)
  omega

theorem b64div1p (a : Nat) : a % 4 * 16 / 16 = a % 4 :=
  Nat.mul_div_cancel _ (by norm_num)

theorem b64mod1 {a b : Nat} (hb : b < 256) :
    (a % 4 * 16 + b / 16) % 16 = b / 16 := by
  rw [Nat.add_comm, Nat.add_mul_mod_self_right]
  exact Nat.mod_eq_of_lt (by omega)

theorem b64div2 {b c : Nat} (hc : c < 256) :
    (b % 16 * 4 + c / 64) / 4 = b % 16 := by
  rw [Nat.add_comm, Nat.add_mul_div_right _ _ (by norm_num : (0:Nat) < 4)]
  have h0 : c / 64 / 4 = 0 := Nat.div_eq_of_lt (by omega)
  omega

theorem b64div2p (b : Nat) : b % 16 * 4 / 4 = b % 16 :=
  Nat.mul_div_cancel _ (by norm_num)

theorem b64mod2 {b c : Nat} (hc : c < 256) :
    (b % 16 * 4 + c / 64) % 4 = c / 64 := by
  rw [Nat.add_comm, Nat.add_mul_mod_self_right]
  exact Nat.mod_eq_of_lt (by omega)

theorem b64idx_b64ch_fin : ∀ i : Fin 64, b64idx (b64ch i.val) = some i.val := by
  decide

theorem b64ch_ne_pad_fin : ∀ i : Fin 64, b64ch i.val ≠ '=' := by
  decide

theorem b64idx_b64ch {n : Nat} (h : n < 64) : b64idx (b64ch n) = some n :=
  b64idx_b64ch_fin ⟨n, h⟩

theorem b64ch_ne_pad {n : Nat} (h : n < 64) : b64ch n ≠ '=' :=
  b64ch_ne_pad_fin ⟨n, h⟩

theorem b64roundtrip :
    ∀ d : List Nat, (∀ b ∈ d, b < 256) → b64decode (b64encode d) = some d := by
  intro d
  induction d using b64encode.induct with
  | case1 => intro _; rfl
  | case2 a =>
    intro h
    have ha : a < 256 := h a (by simp)
    have h1 : a / 4 < 64 := by omega
    have h2 : a % 4 * 16 < 64 := by omega
    simp only [b64encode, b64decode]
    split_ifs with hA
    · rw [b64idx_b64ch h1, b64idx_b64ch h2]
      simp only [Option.bind_eq_bind, Option.some_bind, Option.pure_def,
        Option.some.injEq, List.cons.injEq, and_true]
      rw [b64div1p a]
      omega
    all_goals simp at hA
  | case3 a b =>
    intro h
    have ha : a < 256 := h a (by simp)
    have hb : b < 256 := h b (by simp)
    have h1 : a / 4 < 64 := by omega
    have h2 : a % 4 * 16 + b / 16 < 64 := by omega
    have h3 : b % 16 * 4 < 64 := by omega
    simp only [b64encode, b64decode]
    split_ifs with hA hB
    · exact absurd hA.1 (b64ch_ne_pad h3)
    · rw [b64idx_b64ch h1, b64idx_b64ch h2, b64idx_b64ch h3]
      simp only [Option.bind_eq_bind, Option.some_bind, Option.pure_def,
        Option.some.injEq, List.cons.injEq, and_true]
      rw [b64div1 hb, b64mod1 hb, b64div2p b]
      constructor
      · omega
      · omega
    · simp at hB
  | case4 a b c rest ih =>
    intro h
    have ha : a < 256 := h a (by simp)
    have hb : b < 256 := h b (by simp)
    have hc : c < 256 := h c (by simp)
    have h1 : a / 4 < 64 := by omega
    have h2 : a % 4 * 16 + b / 16 < 64 := by omega
    have h3 : b % 16 * 4 + c / 64 < 64 := by omega
    have h4 : c % 64 < 64 := by omega
    have hrest : ∀ x ∈ rest, x < 256 := fun x hx => h x (by simp [hx])
    simp only [b64encode, b64decode]
    split_ifs with hA hB
    · exact absurd hA.1 (b64ch_ne_pad h3)
    · exact absurd hB.1 (b64ch_ne_pad h4)
    · rw [b64idx_b64ch h1, b64idx_b64ch h2, b64idx_b64ch h3, b64idx_b64ch h4,
        ih hrest]
      simp only [Option.bind_eq_bind, Option.some_bind, Option.pure_def,
        Option.some.injEq, List.cons.injEq, and_true]
      rw [b64div1 hb, b64mod1 hb, b64div2 hc, b64mod2 hc]
      refine ⟨by omega, by omega, by omega⟩


/-! ### Encoder output characterization -/

theorem finalAttempt_out (o : FigOracle) (best : List Nat)
    (hbest : OracleOut o best) : OracleOut o (finalAttempt o best) := by
  unfold finalAttempt
  split_ifs
  · exact Or.inr (Or.inr (Or.inl rfl))
  · exact hbest

theorem encodeLoop_out (o : FigOracle) (shrink : Nat → Nat)
    (maxB minW minH : Nat) :
    ∀ fuel k w hh best, OracleOut o best →
      OracleOut o (encodeLoop o shrink maxB minW minH fuel k w hh best) := by
  intro fuel
  induction fuel with
  | zero =>
    intro k w hh best hbest
    exact finalAttempt_out o best hbest
  | succ n ih =>
    intro k w hh best hbest
    by_cases hstop : ((max minW (shrink w), max minH (shrink hh)) = (w, hh) ∧
        (w, hh) = (minW, minH))
    · simp only [encodeLoop]
      rw [if_pos hstop]
      exact finalAttempt_out o best hbest
    · simp only [encodeLoop]
      rw [if_neg hstop]
      by_cases hfit : (o.loopSave k).length ≤ maxB
      · rw [if_pos hfit]
        exact Or.inr (Or.inl ⟨k, rfl⟩)
      · rw [if_neg hfit]
        apply ih
        by_cases hlt : (o.loopSave k).length < best.length
        · rw [if_pos hlt]
          exact Or.inr (Or.inl ⟨k, rfl⟩)
        · rw [if_neg hlt]
          exact hbest

theorem encode_under_limit_bytes_out (o : FigOracle) (shrink : Nat → Nat)
    (maxB minW minH : Nat) :
    OracleOut o (encode_under_limit_bytes o shrink maxB minW minH) := by
  unfold encode_under_limit_bytes
  split_ifs with hfit
  · exact Or.inl rfl
  · exact encodeLoop_out o shrink maxB minW minH 10 0 o.openW o.openH
      o.figBytes (Or.inl rfl)

theorem figData_out (o : FigOracle) (shrink : Nat → Nat)
    (maxB minW minH : Nat) :
    OracleOut o (figData o shrink maxB minW minH) := by
  unfold figData
  split_ifs
  · exact Or.inr (Or.inr (Or.inr rfl))
  · exact encode_under_limit_bytes_out o shrink maxB minW minH

/-- C9: when the baseline render already fits the byte limit, the
encoder returns exactly those first-encoding bytes: the equality holds
for every `shrink` function and every loop/final-save oracle, so no
resizing, quantization or quality step is applied, and both public
wrappers emit the base64 of those very bytes. -/
theorem encode_first_fit (o : FigOracle) (shrink : Nat → Nat)
    (mime : String) (maxB minW minH : Nat) (mode : String)
    (hfit : o.figBytes.length ≤ maxB) :
    encode_under_limit_bytes o shrink maxB minW minH = o.figBytes ∧
    encode_image_under_limit o shrink mime maxB minW minH =
      wrapDataUri mime (b64encode o.figBytes) ∧
    encode_fig o shrink mime maxB minW minH mode =
      (if mode = "raw_base64" then String.mk (b64encode o.figBytes)
       else wrapDataUri mime (b64encode o.figBytes)) := by
  have h1 : encode_under_limit_bytes o shrink maxB minW minH = o.figBytes := by
    unfold encode_under_limit_bytes
    exact if_pos hfit
  have hfd : figData o shrink maxB minW minH = o.figBytes := by
    unfold figData
    rw [h1, if_neg (by omega)]
  refine ⟨h1, ?_, ?_⟩
  · unfold encode_image_under_limit
    rw [h1]
  · unfold encode_fig
    rw [hfd]

/-- Witness for C9 with a three-byte baseline render under a limit of
five bytes. -/
theorem encode_first_fit_witness :
    encode_under_limit_bytes ⟨[7, 8, 9], 12, 10, fun _ => [0], [0], []⟩
        (fun w => w * 85 / 100) 5 2 2 = [7, 8, 9] ∧
    encode_image_under_limit ⟨[7, 8, 9], 12, 10, fun _ => [0], [0], []⟩
        (fun w => w * 85 / 100) "image/png" 5 2 2 =
      wrapDataUri "image/png" (b64encode [7, 8, 9]) ∧
    encode_fig ⟨[7, 8, 9], 12, 10, fun _ => [0], [0], []⟩
        (fun w => w * 85 / 100) "image/png" 5 2 2 "data_uri" =
      (if "data_uri" = "raw_base64" then String.mk (b64encode [7, 8, 9])
       else wrapDataUri "image/png" (b64encode [7, 8, 9])) :=
  encode_first_fit ⟨[7, 8, 9], 12, 10, fun _ => [0], [0], []⟩
    (fun w => w * 85 / 100) "image/png" 5 2 2 "data_uri" (by decide)

/-- C1: for every figure oracle, PNG/JPEG mime, mode, and byte limit
at least the placeholder's size, `encode_fig` returns the mode-wrapped
base64 of a payload that decodes back to itself, stays within the
byte limit, and is a valid image of the declared mime type whenever
every black-box save (baseline, loop, final, placeholder) produces
one. -/
theorem encode_fig_contract (o : FigOracle) (shrink : Nat → Nat)
    (mime : String) (maxB minW minH : Nat) (mode : String)
    (valid : List Nat → Prop)
    (_hmime : mime = "image/png" ∨ mime = "image/jpeg")
    (hvalid : ∀ d, OracleOut o d → valid d ∧ ∀ b ∈ d, b < 256)
    (htiny : o.tinyFallback.length ≤ maxB) :
    ∃ d, encode_fig o shrink mime maxB minW minH mode =
        (if mode = "raw_base64" then String.mk (b64encode d)
         else wrapDataUri mime (b64encode d)) ∧
      b64decode (b64encode d) = some d ∧ d.length ≤ maxB ∧ valid d := by
  have hout : OracleOut o (figData o shrink maxB minW minH) :=
    figData_out o shrink maxB minW minH
  have hlen : (figData o shrink maxB minW minH).length ≤ maxB := by
    unfold figData
    split_ifs with hgt
    · exact htiny
    · omega
  exact ⟨figData o shrink maxB minW minH, rfl,
    b64roundtrip _ (hvalid _ hout).2, hlen, (hvalid _ hout).1⟩

/-- Witness for C1 with an oversized baseline render, shrinking loop
saves that never fit, and a one-byte placeholder under a two-byte
limit. -/
theorem encode_fig_contract_witness :
    ∃ d, encode_fig ⟨[1, 2, 3], 4, 4, fun _ => [5, 6, 7], [5, 6, 7], [9]⟩
        (fun w => w * 85 / 100) "image/png" 2 1 1 "data_uri" =
        (if "data_uri" = "raw_base64" then String.mk (b64encode d)
         else wrapDataUri "image/png" (b64encode d)) ∧
      b64decode (b64encode d) = some d ∧ d.length ≤ 2 ∧
      (∀ b ∈ d, b ≤ 255) :=
  encode_fig_contract ⟨[1, 2, 3], 4, 4, fun _ => [5, 6, 7], [5, 6, 7], [9]⟩
    (fun w => w * 85 / 100) "image/png" 2 1 1 "data_uri"
    (fun d => ∀ b ∈ d, b ≤ 255)
    (Or.inl rfl)
    (by
      rintro d (rfl | ⟨k, rfl⟩ | rfl | rfl) <;>
        refine ⟨?_, ?_⟩ <;>
        · intro b hb
          have hb2 : b = 5 ∨ b = 6 ∨ b = 7 ∨ b = 1 ∨ b = 2 ∨ b = 3 ∨ b = 9 := by
            revert hb
            simp only [List.mem_cons, List.mem_singleton]
            tauto
          rcases hb2 with rfl | rfl | rfl | rfl | rfl | rfl | rfl <;> norm_num)
    (by decide)

/-! ### Chart-color window characterization -/

theorem colorAt_some {toks : List (List Char)} {j : Int} {c : List Char}
    (h : colorAt toks j = some c) :
    isColorTok c = true ∧ ∃ n : Nat, (n : Int) = j ∧ toks.get? n = some c := by
  unfold colorAt at h
  by_cases hneg : j < 0
  · rw [if_pos hneg] at h
    cases h
  · rw [if_neg hneg] at h
    cases hget : toks.get? j.toNat with
    | none => rw [hget] at h; cases h
    | some tok =>
      rw [hget, Option.some_bind] at h
      by_cases hcol : isColorTok tok
      · rw [if_pos hcol] at h
        cases h
        exact ⟨hcol, j.toNat, Int.toNat_of_nonneg (by omega), hget⟩
      · rw [if_neg hcol] at h
        cases h

theorem colorAt_none {toks : List (List Char)} {j : Int}
    (h : colorAt toks j = none) (n : Nat) (hn : (n : Int) = j)
    {tok : List Char} (hget : toks.get? n = some tok) :
    isColorTok tok = false := by
  unfold colorAt at h
  rw [if_neg (by omega), show j.toNat = n by omega, hget,
    Option.some_bind] at h
  by_cases hcol : isColorTok tok
  · rw [if_pos hcol] at h
    cases h
  · simpa using hcol

theorem find_color_near_some {i : Nat} {toks : List (List Char)}
    {c : List Char} (h : find_color_near i toks = some c) :
    isColorTok c = true ∧
    ∃ j : Nat, toks.get? j = some c ∧ j ≠ i ∧ i ≤ j + 3 ∧ j ≤ i + 3 := by
  have probe : ∀ e : Int, colorAt toks e = some c →
      (i : Int) - 3 ≤ e → e ≤ (i : Int) + 3 → e ≠ (i : Int) →
      isColorTok c = true ∧
      ∃ j : Nat, toks.get? j = some c ∧ j ≠ i ∧ i ≤ j + 3 ∧ j ≤ i + 3 := by
    intro e he hlo hhi hne
    obtain ⟨hcol, n, hn, hget⟩ := colorAt_some he
    exact ⟨hcol, n, hget, by omega, by omega, by omega⟩
  unfold find_color_near at h
  cases h1 : colorAt toks ((i : Int) - 1) with
  | some c1 =>
    rw [h1] at h
    cases h
    exact probe _ h1 (by omega) (by omega) (by omega)
  | none =>
  rw [h1] at h
  cases h2 : colorAt toks ((i : Int) + 1) with
  | some c2 =>
    rw [h2] at h
    cases h
    exact probe _ h2 (by omega) (by omega) (by omega)
  | none =>
  rw [h2] at h
  cases h3 : colorAt toks ((i : Int) - 2) with
  | some c3 =>
    rw [h3] at h
    cases h
    exact probe _ h3 (by omega) (by omega) (by omega)
  | none =>
  rw [h3] at h
  cases h4 : colorAt toks ((i : Int) + 2) with
  | some c4 =>
    rw [h4] at h
    cases h
    exact probe _ h4 (by omega) (by omega) (by omega)
  | none =>
  rw [h4] at h
  cases h5 : colorAt toks ((i : Int) - 3) with
  | some c5 =>
    rw [h5] at h
    cases h
    exact probe _ h5 (by omega) (by omega) (by omega)
  | none =>
  rw [h5] at h
  exact probe _ h (by omega) (by omega) (by omega)

theorem find_color_near_none {i : Nat} {toks : List (List Char)}
    (h : find_color_near i toks = none) :
    ∀ j tok, toks.get? j = some tok → j ≠ i → i ≤ j + 3 → j ≤ i + 3 →
      isColorTok tok = false := by
  intro j tok hget hne hlo hhi
  unfold find_color_near at h
  cases h1 : colorAt toks ((i : Int) - 1) with
  | some c1 => rw [h1] at h; cases h
  | none =>
  rw [h1] at h
  cases h2 : colorAt toks ((i : Int) + 1) with
  | some c2 => rw [h2] at h; cases h
  | none =>
  rw [h2] at h
  cases h3 : colorAt toks ((i : Int) - 2) with
  | some c3 => rw [h3] at h; cases h
  | none =>
  rw [h3] at h
  cases h4 : colorAt toks ((i : Int) + 2) with
  | some c4 => rw [h4] at h; cases h
  | none =>
  rw [h4] at h
  cases h5 : colorAt toks ((i : Int) - 3) with
  | some c5 => rw [h5] at h; cases h
  | none =>
  rw [h5] at h
  have hcase : (j : Int) = (i : Int) - 1 ∨ (j : Int) = (i : Int) + 1 ∨
      (j : Int) = (i : Int) - 2 ∨ (j : Int) = (i : Int) + 2 ∨
      (j : Int) = (i : Int) - 3 ∨ (j : Int) = (i : Int) + 3 := by omega
  rcases hcase with hc | hc | hc | hc | hc | hc
  · exact colorAt_none h1 j hc hget
  · exact colorAt_none h2 j hc hget
  · exact colorAt_none h3 j hc hget
  · exact colorAt_none h4 j hc hget
  · exact colorAt_none h5 j hc hget
  · exact colorAt_none h j hc hget

theorem dedupSpecs_mem : ∀ (l : List ChartSpec) (seen) (s : ChartSpec),
    s ∈ dedupSpecs seen l → s ∈ l := by
  intro l
  induction l with
  | nil => intro seen s h; cases h
  | cons a rest ih =>
    intro seen s h
    unfold dedupSpecs at h
    split_ifs at h with hseen
    · exact List.mem_cons_of_mem _ (ih _ s h)
    · rcases List.mem_cons.mp h with rfl | hmem
      · exact List.mem_cons_self _ _
      · exact List.mem_cons_of_mem _ (ih _ s hmem)

/-- The per-type color rule every emitted spec obeys, relative to the
token list and (for scatter) the stripped text. -/
def SpecColorRule (t : List Char) (allToks : List (List Char))
    (s : ChartSpec) : Prop :=
  (s.ctype = "bar" → ∃ n tok, allToks.get? n = some tok ∧
    isBarTok tok = true ∧
    s.color = String.mk ((find_color_near n allToks).getD "blue".toList)) ∧
  (s.ctype = "line" → ∃ n tok, allToks.get? n = some tok ∧
    isLineTok tok = true ∧
    s.color = String.mk ((find_color_near n allToks).getD "red".toList)) ∧
  (s.ctype = "hist" → ∃ n tok, allToks.get? n = some tok ∧
    isHistTok tok = true ∧
    s.color = String.mk ((find_color_near n allToks).getD "orange".toList)) ∧
  (s.ctype = "scatter" → s.color = scatterColor t)

theorem rawSpecs_mem (t : List Char) (maxB : Nat)
    (allToks : List (List Char)) :
    ∀ toks i s, s ∈ rawSpecs t maxB allToks i toks →
      (∀ k tok, toks.get? k = some tok → allToks.get? (i + k) = some tok) →
      SpecColorRule t allToks s := by
  intro toks
  induction toks with
  | nil => intro i s h _; cases h
  | cons tok rest ih =>
    intro i s h halign
    have halign0 : allToks.get? i = some tok := by
      have := halign 0 tok rfl
      simpa using this
    have halignS : ∀ k tk, rest.get? k = some tk →
        allToks.get? (i + 1 + k) = some tk := by
      intro k tk hk
      have := halign (k + 1) tk (by simpa using hk)
      simpa [Nat.add_assoc, Nat.add_comm 1 k] using this
    simp only [rawSpecs] at h
    rcases List.mem_append.mp h with hleft | hright
    · by_cases hbar : isBarTok tok
      · rw [if_pos hbar] at hleft
        rcases List.mem_singleton.mp hleft with rfl
        exact ⟨fun _ => ⟨i, tok, halign0, hbar, rfl⟩,
          fun hc => absurd (show ("bar" : String) = "line" from hc) (by decide),
          fun hc => absurd (show ("bar" : String) = "hist" from hc) (by decide),
          fun hc => absurd (show ("bar" : String) = "scatter" from hc) (by decide)⟩
      · rw [if_neg hbar] at hleft
        by_cases hline : isLineTok tok
        · rw [if_pos hline] at hleft
          rcases List.mem_singleton.mp hleft with rfl
          exact ⟨fun hc => absurd (show ("line" : String) = "bar" from hc) (by decide),
            fun _ => ⟨i, tok, halign0, hline, rfl⟩,
            fun hc => absurd (show ("line" : String) = "hist" from hc) (by decide),
            fun hc => absurd (show ("line" : String) = "scatter" from hc) (by decide)⟩
        · rw [if_neg hline] at hleft
          by_cases hhist : isHistTok tok
          · rw [if_pos hhist] at hleft
            rcases List.mem_singleton.mp hleft with rfl
            exact ⟨fun hc => absurd (show ("hist" : String) = "bar" from hc) (by decide),
              fun hc => absurd (show ("hist" : String) = "line" from hc) (by decide),
              fun _ => ⟨i, tok, halign0, hhist, rfl⟩,
              fun hc => absurd (show ("hist" : String) = "scatter" from hc) (by decide)⟩
          · rw [if_neg hhist] at hleft
            by_cases hsc : isScatterTok tok
            · rw [if_pos hsc] at hleft
              rcases List.mem_singleton.mp hleft with rfl
              exact ⟨fun hc => absurd (show ("scatter" : String) = "bar" from hc) (by decide),
                fun hc => absurd (show ("scatter" : String) = "line" from hc) (by decide),
                fun hc => absurd (show ("scatter" : String) = "hist" from hc) (by decide),
                fun _ => rfl⟩
            · rw [if_neg hsc] at hleft
              cases hleft
    · exact ih (i + 1) s hright halignS

/-- C6 counterexample: in `"scatter in green"` the named color `green`
sits two tokens from the scatter keyword, yet the emitted spec is
blue: the scatter branch ignores the ±3-token window entirely. -/
theorem c6_scatter_ignores_window :
    detect_chart_specs "scatter in green".toList =
      [⟨"scatter_plot", "scatter", "blue", 100000⟩] ∧
    find_color_near 0 (tokenize (lowerStr (pyStrip "scatter in green".toList))) =
      some "green".toList ∧
    ("blue" : String) ≠ "green" := by decide

/-- C6 amended: every spec emitted for a bar, line or histogram token
carries the color of the ±3-token window search (`_find_color_near`,
probing offsets −1, +1, −2, +2, −3, +3) when it finds one, else the
type default (`bar`→blue, `line`→red, `histogram`→orange); scatter
specs ignore the window and are red exactly when a standalone `red`
(or the dotted-red-regression phrase) occurs anywhere in the text,
else blue.  The window search returns a named color lying within
±3 tokens whenever one exists there, and `none` only when no
in-window token is a color. -/
theorem detect_chart_specs_color_rule (text : List Char) :
    (∀ s ∈ detect_chart_specs text,
      SpecColorRule (pyStrip text) (tokenize (lowerStr (pyStrip text))) s) ∧
    (∀ toks : List (List Char), ∀ i c, find_color_near i toks = some c →
      isColorTok c = true ∧
      ∃ j, toks.get? j = some c ∧ j ≠ i ∧ i ≤ j + 3 ∧ j ≤ i + 3) ∧
    (∀ toks : List (List Char), ∀ i, find_color_near i toks = none →
      ∀ j tok, toks.get? j = some tok → j ≠ i → i ≤ j + 3 → j ≤ i + 3 →
        isColorTok tok = false) := by
  refine ⟨?_, ?_, ?_⟩
  · intro s hs
    simp only [detect_chart_specs] at hs
    exact rawSpecs_mem _ _ _ _ 0 s (dedupSpecs_mem _ _ _ hs)
      (fun k tok hk => by simpa using hk)
  · intro toks i c h
    exact find_color_near_some h
  · intro toks i h
    exact find_color_near_none h

/-- Witness for C6 amended on `"red scatter and bar"`: the scatter
spec is red (standalone `red` in the text) and the window search finds
`red` three tokens before the bar keyword. -/
theorem detect_chart_specs_color_rule_witness :
    SpecColorRule (pyStrip "red scatter and bar".toList)
      (tokenize (lowerStr (pyStrip "red scatter and bar".toList)))
      ⟨"scatter_plot", "scatter", "red", 100000⟩ ∧
    (isColorTok "red".toList = true ∧
      ∃ j, (tokenize (lowerStr (pyStrip "red scatter and bar".toList))).get? j =
          some "red".toList ∧ j ≠ 3 ∧ 3 ≤ j + 3 ∧ j ≤ 3 + 3) :=
  ⟨(detect_chart_specs_color_rule "red scatter and bar".toList).1 _ (by decide),
   (detect_chart_specs_color_rule "red scatter and bar".toList).2.1 _ 3 _ (by decide)⟩

/-- Witness for C3: a high-court request with an exhausted budget is
skipped identically for two different handler sets. -/
theorem route_skips_when_exhausted_witness :
    route "analyze the High Court judgments" (fun _ => true)
        ⟨fun _ => "a", fun _ => "a", fun _ => "a", fun _ => "a",
         fun _ => "a", fun _ => "a", fun _ => "a"⟩ =
      Routed.note "timeout-skip-highcourt" ∧
    route "analyze the High Court judgments" (fun _ => true)
        ⟨fun _ => "a", fun _ => "a", fun _ => "a", fun _ => "a",
         fun _ => "a", fun _ => "a", fun _ => "a"⟩ =
      route "analyze the High Court judgments" (fun _ => true)
        ⟨fun _ => "b", fun _ => "b", fun _ => "b", fun _ => "b",
         fun _ => "b", fun _ => "b", fun _ => "b"⟩ := by
  have := route_skips_when_exhausted "analyze the High Court judgments"
    (fun _ => true) Candidate.highcourt
    ⟨fun _ => "a", fun _ => "a", fun _ => "a", fun _ => "a",
     fun _ => "a", fun _ => "a", fun _ => "a"⟩
    ⟨fun _ => "b", fun _ => "b", fun _ => "b", fun _ => "b",
     fun _ => "b", fun _ => "b", fun _ => "b"⟩
    (by decide) rfl
  exact this

end DAA

namespace DAA
theorem char_le_toNat {a b : Char} : a ≤ b ↔ a.toNat ≤ b.toNat := Iff.rfl

theorem digit_toNat {c : Char} (h : asciiDigit c = true) :
    48 ≤ c.toNat ∧ c.toNat ≤ 57 := by
  simp only [asciiDigit, Bool.and_eq_true, decide_eq_true_eq] at h
  exact ⟨char_le_toNat.mp h.1, char_le_toNat.mp h.2⟩

theorem char_eq_of_toNat {c : Char} (d : Char) (h : c.toNat = d.toNat) :
    c = d := by
  apply Char.le_antisymm
  · exact char_le_toNat.mpr (by omega)
  · exact char_le_toNat.mpr (by omega)

theorem digit_not_space {c : Char} (h : asciiDigit c = true) :
    pySpace c = false := by
  have hn := digit_toNat h
  simp only [pySpace, Bool.or_eq_false_iff, decide_eq_false_iff_not]
  refine ⟨⟨⟨⟨⟨?_, ?_⟩, ?_⟩, ?_⟩, ?_⟩, ?_⟩ <;>
    · intro hc
      subst hc
      exact absurd hn (by decide)

theorem digit_lower {c : Char} (h : asciiDigit c = true) : lowerCh c = c := by
  have hn := digit_toNat h
  unfold lowerCh
  rw [if_neg]
  intro hc
  simp only [Bool.and_eq_true, decide_eq_true_eq] at hc
  have h1 : ('A').toNat ≤ c.toNat := char_le_toNat.mp hc.1
  have h2 : c.toNat ≤ ('Z').toNat := char_le_toNat.mp hc.2
  rw [show ('A').toNat = 65 from rfl] at h1
  rw [show ('Z').toNat = 90 from rfl] at h2
  omega

theorem digit_ne_char {c : Char} (h : asciiDigit c = true) (d : Char)
    (hd : d.toNat < 48 ∨ 57 < d.toNat) : c ≠ d := by
  have hn := digit_toNat h
  intro hc
  subst hc
  omega
end DAA

namespace DAA

/-- The next character, if any, is not a digit. -/
def headNonDigit (rest : List Char) : Prop :=
  ∀ c, rest.head? = some c → asciiDigit c = false

theorem takeDigits_all {ds rest : List Char}
    (hd : ∀ c ∈ ds, asciiDigit c = true) :
    ∀ k, k ≤ ds.length →
      takeDigits k (ds ++ rest) = some (ds.take k, ds.drop k ++ rest) := by
  induction ds generalizing rest with
  | nil =>
    intro k hk
    have hk0 : k = 0 := by simpa using hk
    subst hk0
    rfl
  | cons d ds' ih =>
    intro k hk
    cases k with
    | zero => rfl
    | succ k =>
      have hdd : asciiDigit d = true := hd d (by simp)
      simp only [List.cons_append, takeDigits, hdd, eq_self_iff_true, if_true,
        List.append_eq]
      rw [ih (fun c hc => hd c (by simp [hc])) k (by simpa using hk)]
      rfl

theorem takeDigits_over {ds rest : List Char}
    (hd : ∀ c ∈ ds, asciiDigit c = true) (hr : headNonDigit rest) :
    ∀ k, ds.length < k → takeDigits k (ds ++ rest) = none := by
  induction ds generalizing rest with
  | nil =>
    intro k hk
    cases k with
    | zero => omega
    | succ k =>
      simp only [List.nil_append]
      cases rest with
      | nil => rfl
      | cons c cs =>
        have := hr c rfl
        simp [takeDigits, this]
  | cons d ds' ih =>
    intro k hk
    cases k with
    | zero => omega
    | succ k =>
      have hdd : asciiDigit d = true := hd d (by simp)
      simp only [List.cons_append, takeDigits, hdd, eq_self_iff_true, if_true,
        List.append_eq]
      rw [ih (fun c hc => hd c (by simp [hc])) hr k (by simpa using hk)]
      rfl

theorem takeWhile_digits {ds rest : List Char}
    (hd : ∀ c ∈ ds, asciiDigit c = true) (hr : headNonDigit rest) :
    (ds ++ rest).takeWhile asciiDigit = ds ∧
    (ds ++ rest).dropWhile asciiDigit = rest := by
  induction ds with
  | nil =>
    cases rest with
    | nil => exact ⟨rfl, rfl⟩
    | cons c cs =>
      have := hr c rfl
      simp [List.takeWhile, List.dropWhile, this]
  | cons d ds' ih =>
    have hdd : asciiDigit d = true := hd d (by simp)
    have := ih (fun c hc => hd c (by simp [hc]))
    simp only [List.cons_append, List.takeWhile, List.dropWhile, hdd]
    simp [this.1, this.2]

end DAA

namespace DAA

theorem sfx_headNonDigit : headNonDigit " bytes".toList := by
  intro c hc
  cases hc
  rfl

theorem digits_drop {ds : List Char} (hd : ∀ c ∈ ds, asciiDigit c = true)
    (k : Nat) : ∀ c ∈ ds.drop k, asciiDigit c = true :=
  fun c hc => hd c (List.drop_subset k ds hc)

theorem sizeBytesTry_comma_none {ds : List Char}
    (hd : ∀ c ∈ ds, asciiDigit c = true) (k : Nat) :
    sizeBytesTry k true (ds ++ " bytes".toList) = none := by
  unfold sizeBytesTry
  by_cases hlen : k ≤ ds.length
  · rw [takeDigits_all hd k hlen]
    simp only [Option.bind_eq_bind, Option.some_bind]
    cases hdk : ds.drop k with
    | nil => rfl
    | cons d rest =>
      have hdig : asciiDigit d = true :=
        digits_drop hd k d (by rw [hdk]; exact List.mem_cons_self d rest)
      have hne : d ≠ ',' := digit_ne_char hdig ',' (by decide)
      simp only [List.cons_append, if_true]
      split
      · rename_i r heq
        injection heq with hh _
        exact absurd hh hne
      · rfl
  · rw [takeDigits_over hd sfx_headNonDigit k (by omega)]
    rfl

theorem sizeBytesTry_nocomma_eq {ds : List Char}
    (hd : ∀ c ∈ ds, asciiDigit c = true) (k : Nat)
    (hlen : ds.length = k + 3) :
    sizeBytesTry k false (ds ++ " bytes".toList) = some ds := by
  unfold sizeBytesTry
  rw [takeDigits_all hd k (by omega)]
  simp only [Option.bind_eq_bind, Option.some_bind, Bool.false_eq_true,
    if_false]
  rw [takeDigits_all (digits_drop hd k) 3 (by simp [hlen])]
  simp only [Option.some_bind]
  rw [List.drop_eq_nil_of_le (by simp [hlen] : (ds.drop k).length ≤ 3)]
  rw [show wsStar ([] ++ " bytes".toList) = "bytes".toList from rfl]
  rw [show litCI "bytes".toList "bytes".toList = some [] from rfl]
  simp only [Option.some_bind]
  rw [List.take_of_length_le (by simp [hlen] : (ds.drop k).length ≤ 3)]
  rw [List.take_append_drop]
  rfl

theorem sizeBytesTry_nocomma_ne {ds : List Char}
    (hd : ∀ c ∈ ds, asciiDigit c = true) (k : Nat)
    (hne : ds.length ≠ k + 3) :
    sizeBytesTry k false (ds ++ " bytes".toList) = none := by
  unfold sizeBytesTry
  by_cases h1 : k ≤ ds.length
  · rw [takeDigits_all hd k h1]
    simp only [Option.bind_eq_bind, Option.some_bind, Bool.false_eq_true,
      if_false]
    by_cases h2 : ds.length < k + 3
    · rw [takeDigits_over (digits_drop hd k) sfx_headNonDigit 3
        (by simp; omega)]
      rfl
    · rw [takeDigits_all (digits_drop hd k) 3 (by simp; omega)]
      simp only [Option.some_bind]
      have hdd : (ds.drop k).drop 3 = ds.drop (k + 3) := by
        rw [List.drop_drop]
      rw [hdd]
      cases hcons : ds.drop (k + 3) with
      | nil =>
        have := List.drop_eq_nil_iff.mp hcons
        omega
      | cons d0 tail =>
        have hdig : asciiDigit d0 = true :=
          digits_drop hd (k + 3) d0 (by rw [hcons]; exact List.mem_cons_self d0 tail)
        simp only [List.cons_append]
        rw [show wsStar (d0 :: (tail ++ " bytes".toList)) =
            d0 :: (tail ++ " bytes".toList) from by
          unfold wsStar
          rw [List.dropWhile_cons_of_neg (by simp [digit_not_space hdig])]]
        rw [show litCI "bytes".toList (d0 :: (tail ++ " bytes".toList)) = none from by
          rw [show "bytes".toList = ['b', 'y', 't', 'e', 's'] from rfl]
          simp only [litCI]
          rw [digit_lower hdig]
          rw [if_neg (digit_ne_char hdig 'b' (by decide))]]
        rfl
  · rw [takeDigits_over hd sfx_headNonDigit k (by omega)]
    rfl

end DAA

namespace DAA

theorem sizeBytesAlt_digits {ds : List Char}
    (hd : ∀ c ∈ ds, asciiDigit c = true) :
    sizeBytesAlt (ds ++ " bytes".toList) =
      if ds.length = 5 ∨ ds.length = 6 then some ds else none := by
  unfold sizeBytesAlt
  rw [sizeBytesTry_comma_none hd 3, sizeBytesTry_comma_none hd 2]
  by_cases h6 : ds.length = 6
  · rw [sizeBytesTry_nocomma_eq hd 3 (by omega)]
    simp [h6]
  · rw [sizeBytesTry_nocomma_ne hd 3 (by omega)]
    by_cases h5 : ds.length = 5
    · rw [sizeBytesTry_nocomma_eq hd 2 (by omega)]
      simp [h5]
    · rw [sizeBytesTry_nocomma_ne hd 2 (by omega)]
      simp [h5, h6]

theorem sizeKiloAlt_digits_bytes {ds : List Char}
    (hd : ∀ c ∈ ds, asciiDigit c = true) :
    sizeKiloAlt (ds ++ " bytes".toList) = none := by
  cases ds with
  | nil => rfl
  | cons d ds' =>
    have hdig : asciiDigit d = true := hd d (by simp)
    have hsub : ∀ c ∈ ds', asciiDigit c = true :=
      fun c hc => hd c (by simp [hc])
    have htw := takeWhile_digits hsub sfx_headNonDigit
    simp only [List.cons_append, sizeKiloAlt]
    split_ifs with hc
    · rw [htw.2]
      rfl
    · rfl

theorem sizeStep_digits_bytes {ds : List Char}
    (hd : ∀ c ∈ ds, asciiDigit c = true) :
    sizeStep (ds ++ " bytes".toList) =
      if ds.length = 5 ∨ ds.length = 6 then some (true, ds) else none := by
  unfold sizeStep
  rw [sizeBytesAlt_digits hd]
  by_cases h : ds.length = 5 ∨ ds.length = 6
  · rw [if_pos h, if_pos h]
  · rw [if_neg h, if_neg h, sizeKiloAlt_digits_bytes hd]
    rfl

end DAA

namespace DAA

theorem sizeBytesTry_comma_none_g {ds rest : List Char}
    (hd : ∀ c ∈ ds, asciiDigit c = true) (hr : headNonDigit rest)
    (hnc : rest.head? ≠ some ',') (k : Nat) :
    sizeBytesTry k true (ds ++ rest) = none := by
  unfold sizeBytesTry
  by_cases hlen : k ≤ ds.length
  · rw [takeDigits_all hd k hlen]
    simp only [Option.bind_eq_bind, Option.some_bind]
    cases hdk : ds.drop k with
    | nil =>
      simp only [List.nil_append, if_true]
      split
      · simp at hnc
      · rfl
    | cons d rest2 =>
      have hdig : asciiDigit d = true :=
        digits_drop hd k d (by rw [hdk]; exact List.mem_cons_self d rest2)
      have hne : d ≠ ',' := digit_ne_char hdig ',' (by decide)
      simp only [List.cons_append, if_true]
      split
      · rename_i r heq
        injection heq with hh _
        exact absurd hh hne
      · rfl
  · rw [takeDigits_over hd hr k (by omega)]
    rfl

theorem sizeBytesTry_nocomma_none_g {ds rest : List Char}
    (hd : ∀ c ∈ ds, asciiDigit c = true) (hr : headNonDigit rest)
    (hlit : litCI "bytes".toList (wsStar rest) = none) (k : Nat) :
    sizeBytesTry k false (ds ++ rest) = none := by
  unfold sizeBytesTry
  by_cases h1 : k ≤ ds.length
  · rw [takeDigits_all hd k h1]
    simp only [Option.bind_eq_bind, Option.some_bind, Bool.false_eq_true,
      if_false]
    by_cases h2 : ds.length < k + 3
    · rw [takeDigits_over (digits_drop hd k) hr 3 (by simp; omega)]
      rfl
    · rw [takeDigits_all (digits_drop hd k) 3 (by simp; omega)]
      simp only [Option.some_bind]
      have hdd : (ds.drop k).drop 3 = ds.drop (k + 3) := by
        rw [List.drop_drop]
      rw [hdd]
      cases hcons : ds.drop (k + 3) with
      | nil =>
        simp only [List.nil_append]
        rw [hlit]
        rfl
      | cons d0 tail =>
        have hdig : asciiDigit d0 = true :=
          digits_drop hd (k + 3) d0
            (by rw [hcons]; exact List.mem_cons_self d0 tail)
        simp only [List.cons_append]
        rw [show wsStar (d0 :: (tail ++ rest)) =
            d0 :: (tail ++ rest) from by
          unfold wsStar
          rw [List.dropWhile_cons_of_neg (by simp [digit_not_space hdig])]]
        rw [show litCI "bytes".toList (d0 :: (tail ++ rest)) = none from by
          rw [show "bytes".toList = ['b', 'y', 't', 'e', 's'] from rfl]
          simp only [litCI]
          rw [digit_lower hdig]
          rw [if_neg (digit_ne_char hdig 'b' (by decide))]]
        rfl
  · rw [takeDigits_over hd hr k (by omega)]
    rfl

end DAA

namespace DAA

theorem scan_digits_bytes : ∀ ds : List Char,
    (∀ c ∈ ds, asciiDigit c = true) →
    scanO sizeStep (ds ++ " bytes".toList) =
      if 5 ≤ ds.length then some (true, ds.drop (ds.length - 6)) else none := by
  intro ds
  induction ds with
  | nil =>
    intro _
    simp only [List.nil_append, List.length_nil]
    rw [show scanO sizeStep " bytes".toList = none from by rfl]
    rfl
  | cons d ds' ih =>
    intro hd
    have hsub : ∀ c ∈ ds', asciiDigit c = true :=
      fun c hc => hd c (by simp [hc])
    simp only [List.cons_append, scanO, List.append_eq]
    have hstep2 : sizeStep (d :: (ds' ++ " bytes".toList)) =
        (if (d :: ds').length = 5 ∨ (d :: ds').length = 6
         then some (true, d :: ds') else none) :=
      sizeStep_digits_bytes hd
    rw [hstep2]
    by_cases h56 : (d :: ds').length = 5 ∨ (d :: ds').length = 6
    · rw [if_pos h56]
      have hdrop : (d :: ds').drop ((d :: ds').length - 6) = d :: ds' := by
        rcases h56 with h | h <;> rw [h] <;> rfl
      rw [if_pos (by rcases h56 with h | h <;> omega), hdrop]
    · rw [if_neg h56]
      rw [ih hsub]
      simp only [List.length_cons] at h56 ⊢
      by_cases h5 : 5 ≤ ds'.length
      · have hl : 6 ≤ ds'.length := by omega
        rw [if_pos h5, if_pos (by omega)]
        have hstep : ds'.length + 1 - 6 = (ds'.length - 6) + 1 := by omega
        rw [hstep, List.drop_succ_cons]
      · rw [if_neg h5, if_neg (by omega)]

theorem extract_bytes_family {ds : List Char}
    (hd : ∀ c ∈ ds, asciiDigit c = true) :
    extract_global_max_bytes (ds ++ " bytes".toList) =
      if 5 ≤ ds.length then natOfDigits (ds.drop (ds.length - 6))
      else 100000 := by
  unfold extract_global_max_bytes
  rw [scan_digits_bytes ds hd]
  by_cases h : 5 ≤ ds.length
  · rw [if_pos h, if_pos h]
  · rw [if_neg h, if_neg h]

theorem extract_kilo_family (c : Char) (ds suffix : List Char)
    (hc1 : 49 ≤ c.toNat) (hc9 : c.toNat ≤ 57)
    (hd : ∀ x ∈ ds, asciiDigit x = true)
    (hsfx : suffix = "k".toList ∨ suffix = "kb".toList ∨
      suffix = "kib".toList) :
    extract_global_max_bytes ((c :: ds) ++ suffix) =
      natOfDigits (c :: ds) * 1000 := by
  have hr : headNonDigit suffix := by
    rcases hsfx with rfl | rfl | rfl <;> (intro x hx; cases hx; rfl)
  have hnc : suffix.head? ≠ some ',' := by
    rcases hsfx with rfl | rfl | rfl <;> simp
  have hlit : litCI "bytes".toList (wsStar suffix) = none := by
    rcases hsfx with rfl | rfl | rfl <;> rfl
  have hck : asciiDigit c = true := by
    simp only [asciiDigit, Bool.and_eq_true, decide_eq_true_eq]
    constructor
    · rw [char_le_toNat, show ('0').toNat = 48 from rfl]
      omega
    · rw [char_le_toNat, show ('9').toNat = 57 from rfl]
      omega
  have hdall : ∀ x ∈ (c :: ds), asciiDigit x = true := by
    intro x hx
    rcases List.mem_cons.mp hx with rfl | hx2
    · exact hck
    · exact hd x hx2
  have hstep : sizeStep ((c :: ds) ++ suffix) = some (false, c :: ds) := by
    unfold sizeStep
    rw [show sizeBytesAlt ((c :: ds) ++ suffix) = none from by
      unfold sizeBytesAlt
      rw [sizeBytesTry_comma_none_g hdall hr hnc 3,
        sizeBytesTry_nocomma_none_g hdall hr hlit 3,
        sizeBytesTry_comma_none_g hdall hr hnc 2,
        sizeBytesTry_nocomma_none_g hdall hr hlit 2]]
    have htw := takeWhile_digits hd hr
    simp only [List.cons_append, sizeKiloAlt]
    rw [if_pos (by
      simp only [Bool.and_eq_true, decide_eq_true_eq]
      constructor
      · rw [char_le_toNat, show ('1').toNat = 49 from rfl]
        omega
      · rw [char_le_toNat, show ('9').toNat = 57 from rfl]
        omega)]
    rw [htw.1, htw.2]
    rcases hsfx with rfl | rfl | rfl <;> rfl
  unfold extract_global_max_bytes
  rw [show (c :: ds) ++ suffix = c :: (ds ++ suffix) from rfl]
  simp only [scanO, List.append_eq]
  have hstep2 : sizeStep (c :: (ds ++ suffix)) = some (false, c :: ds) := hstep
  rw [hstep2]

end DAA

namespace DAA

/-- C10 counterexample: `"1234567 bytes"` is neither a 5–6-digit byte
count nor a k-suffixed number, yet the extractor does not leave the
default: the leftmost `SIZE_RE` match starts inside the digit run and
takes its last six digits. -/
theorem c10_seven_digit_run :
    extract_global_max_bytes "1234567 bytes".toList = 234567 ∧
    (234567 : Nat) ≠ 100000 := by
  decide

/-- C10 amended: the first size match resolves as follows.  A nonzero
digit run with a `k`/`kb`/`kib` suffix yields the number times 1000
(`kib` included, not 1024).  A digit run directly followed by
whitespace and `bytes` is recognized whenever it has at least five
digits: a 5- or 6-digit run is taken verbatim, while a longer run
matches further right so that exactly its last six digits are taken.
A comma is accepted (and removed) before the last three digits, as in
`"12,345 bytes"`.  Runs of fewer than five digits, such as
`"500 bytes"`, and texts without any size pattern leave the default
of 100000 bytes in place. -/
theorem extract_size_rule :
    (∀ c : Char, ∀ ds suffix : List Char, 49 ≤ c.toNat → c.toNat ≤ 57 →
      (∀ x ∈ ds, asciiDigit x = true) →
      (suffix = "k".toList ∨ suffix = "kb".toList ∨
        suffix = "kib".toList) →
      extract_global_max_bytes ((c :: ds) ++ suffix) =
        natOfDigits (c :: ds) * 1000) ∧
    (∀ ds : List Char, (∀ x ∈ ds, asciiDigit x = true) →
      extract_global_max_bytes (ds ++ " bytes".toList) =
        if 5 ≤ ds.length then natOfDigits (ds.drop (ds.length - 6))
        else 100000) ∧
    extract_global_max_bytes "500 bytes".toList = 100000 ∧
    extract_global_max_bytes "12,345 bytes".toList = 12345 ∧
    extract_global_max_bytes "12 kib".toList = 12000 ∧
    extract_global_max_bytes "".toList = 100000 := by
  refine ⟨?_, ?_, by decide, by decide, by decide, by decide⟩
  · intro c ds suffix h1 h2 h3 h4
    exact extract_kilo_family c ds suffix h1 h2 h3 h4
  · intro ds h
    exact extract_bytes_family h

/-- Witness for C10 amended: `"80kb"` resolves to 80000 and
`"1234567 bytes"` to its last six digits. -/
theorem extract_size_rule_witness :
    extract_global_max_bytes (('8' :: "0".toList) ++ "kb".toList) =
      natOfDigits ('8' :: "0".toList) * 1000 ∧
    extract_global_max_bytes ("1234567".toList ++ " bytes".toList) =
      (if 5 ≤ "1234567".toList.length
       then natOfDigits ("1234567".toList.drop ("1234567".toList.length - 6))
       else 100000) :=
  ⟨extract_size_rule.1 '8' "0".toList "kb".toList (by decide) (by decide)
      (by decide) (Or.inr (Or.inl rfl)),
   extract_size_rule.2.1 "1234567".toList (by decide)⟩

end DAA
